import Mathlib

/-!
Shallow embedding of the combinatorics-visualizer core (src/main.py).

The Python program builds a deck of playing cards (`create_deck`), enumerates
arrangements of size `r` with the four `itertools` generators used at
main.py:135-142 and main.py:229-234, computes closed-form counts with
`math.perm` / `math.comb` / `**` (main.py:298-315, main.py:524-536), and
computes layout geometry (`calculate_grid_dimensions` at main.py:59-68,
per-card scaling at main.py:262-265 and main.py:411-414).

Pure functions are translated directly; Python `int` is `Int` where negative
inputs matter (deck size) and `Nat` elsewhere; float geometry is modelled
exactly over `ℚ`.
-/

/-- Model of the Python `Card` class (main.py:11-30): `value`, `suit`, and the
derived `symbol` and `color` fields computed in `__init__`. -/
structure Card where
  value : Nat
  suit : String
  symbol : String
  color : String
deriving DecidableEq, Inhabited, Repr

/-- `Card.get_symbol` (main.py:18-27). -/
def get_symbol (value : Nat) : String :=
  if value = 1 then "A"
  else if value = 11 then "J"
  else if value = 12 then "Q"
  else if value = 13 then "K"
  else toString value

/-- `Card.__init__` (main.py:12-16): stores value and suit and derives the
display symbol and the color class. -/
def Card.init (value : Nat) (suit : String) : Card :=
  { value := value
    suit := suit
    symbol := get_symbol value
    color := if suit ∈ (["♥", "♦"] : List String) then "red" else "black" }

/-- The fixed suit table `suits = ['♥', '♠', '♣', '♦']` (main.py:35). -/
def suits : List String := ["♥", "♠", "♣", "♦"]

/-- The value table `values = list(range(1, 14))` (main.py:36). -/
def pipValues : List Nat := (List.range 13).map (fun v => v + 1)

/-- `create_deck(n)` (main.py:33-44): n cards, cycling suits (period 4) and
values (period 13).  Python `range(n)` on a non-positive `int` is empty, which
`Int.toNat` models exactly. -/
def create_deck (n : Int) : List Card :=
  (List.range n.toNat).map (fun i =>
    Card.init (pipValues.get ⟨i % 13, by simp [pipValues]; omega⟩)
      (suits.get ⟨i % 4, by simp [suits]; omega⟩))

/-- The four selection modes offered by the UI (main.py:135-142): the
`if/elif/else` dispatch over the selection-type strings. -/
inductive SelectionMode where
  | PermutationNoRepeat
  | PermutationWithRepeat
  | CombinationNoRepeat
  | CombinationWithRepeat
deriving DecidableEq, Repr

/-- Helper for `itertools.permutations`: all ways to pick one element out of a
list, returning the picked element together with the remaining list (order of
the remainder preserved).  `picks [a,b,c] = [(a,[b,c]), (b,[a,c]), (c,[a,b])]`. -/
def picks {α : Type} : List α → List (α × List α)
  | [] => []
  | x :: xs => (x, xs) :: (picks xs).map (fun p => (p.1, x :: p.2))

/-- `list(itertools.permutations(l, r))` (main.py:136): all length-`r`
sequences of distinct positions of `l`, in lexicographic order of the
position tuples.  Empty for `r > l.length`. -/
def permutationsLen {α : Type} : List α → Nat → List (List α)
  | _, 0 => [[]]
  | l, r + 1 => (picks l).flatMap (fun p => (permutationsLen p.2 r).map (fun t => p.1 :: t))

/-- `list(itertools.product(l, repeat=r))` (main.py:138): the Cartesian power,
odometer order (rightmost position varies fastest). -/
def productRepeat {α : Type} (l : List α) : Nat → List (List α)
  | 0 => [[]]
  | r + 1 => l.flatMap (fun x => (productRepeat l r).map (fun t => x :: t))

/-- `list(itertools.combinations(l, r))` (main.py:140): all length-`r`
subsequences of `l`, in lexicographic order of the position tuples. -/
def combinations {α : Type} : List α → Nat → List (List α)
  | _, 0 => [[]]
  | [], _ + 1 => []
  | x :: xs, r + 1 => ((combinations xs r).map (fun t => x :: t)) ++ combinations xs (r + 1)

/-- `list(itertools.combinations_with_replacement(l, r))` (main.py:142): all
selections of `r` positions of `l` with non-decreasing position tuples, in
lexicographic order. -/
def combinationsWithReplacement {α : Type} (l : List α) (r : Nat) : List (List α) :=
  match l, r with
  | _, 0 => [[]]
  | [], _ + 1 => []
  | x :: xs, r + 1 =>
      ((combinationsWithReplacement (x :: xs) r).map (fun t => x :: t)) ++
        combinationsWithReplacement xs (r + 1)
termination_by (r, l.length)

/-- The enumeration dispatch (main.py:135-142 and main.py:229-234): one
`itertools` generator per selection mode. -/
def enumerate (cards : List Card) (r : Nat) : SelectionMode → List (List Card)
  | SelectionMode.PermutationNoRepeat => permutationsLen cards r
  | SelectionMode.PermutationWithRepeat => productRepeat cards r
  | SelectionMode.CombinationNoRepeat => combinations cards r
  | SelectionMode.CombinationWithRepeat => combinationsWithReplacement cards r

/-- The closed-form counts computed by the code (main.py:298-315 and
main.py:524-536): `math.perm(n, r)` (= `n.descFactorial r`, zero when
`r > n`), `n ** r`, `math.comb(n, r)`, and `math.comb(n + r - 1, r)`. -/
def count (n r : Nat) : SelectionMode → Nat
  | SelectionMode.PermutationNoRepeat => n.descFactorial r
  | SelectionMode.PermutationWithRepeat => n ^ r
  | SelectionMode.CombinationNoRepeat => n.choose r
  | SelectionMode.CombinationWithRepeat => (n + r - 1).choose r

/-- Modelled from the spec's closed-form formulas, for comparison with the
code's `count`: `n!/(n-r)!`, `n^r`, `n!/(r!(n-r)!)`, `(n+r-1)!/(r!(n-1)!)`. -/
def specCount (n r : Nat) : SelectionMode → Nat
  | SelectionMode.PermutationNoRepeat => n.factorial / (n - r).factorial
  | SelectionMode.PermutationWithRepeat => n ^ r
  | SelectionMode.CombinationNoRepeat => n.factorial / (r.factorial * (n - r).factorial)
  | SelectionMode.CombinationWithRepeat =>
      (n + r - 1).factorial / (r.factorial * (n - 1).factorial)

/-- `calculate_grid_dimensions` (main.py:59-68), returning `(rows, cols)`. -/
def calculate_grid_dimensions (n_arrangements : Nat) : Nat × Nat :=
  if n_arrangements ≤ 4 then (1, n_arrangements)
  else if n_arrangements ≤ 8 then (2, 4)
  else
    let n_cols := min 6 n_arrangements
    let n_rows := (n_arrangements + n_cols - 1) / n_cols
    (n_rows, n_cols)

/-- Per-card width `0.7 / max(k, 3)` (main.py:263 with `k = len(arrangement)`,
main.py:412 with `k = r`), over exact rationals. -/
def card_width (k : Nat) : ℚ := (7 / 10 : ℚ) / ((max k 3 : Nat) : ℚ)

/-- Per-card height `card_width * 1.4` (main.py:280 and main.py:426). -/
def card_height (k : Nat) : ℚ := card_width k * (7 / 5 : ℚ)

/-! ### Length lemmas for the four enumerators -/

theorem picks_length {α : Type} (l : List α) : (picks l).length = l.length := by
  induction l with
  | nil => rfl
  | cons x xs ih => simp [picks, ih]

theorem picks_snd_length {α : Type} (l : List α) :
    ∀ p ∈ picks l, p.2.length + 1 = l.length := by
  induction l with
  | nil => intro p hp; simp [picks] at hp
  | cons x xs ih =>
      intro p hp
      simp only [picks, List.mem_cons, List.mem_map] at hp
      rcases hp with h | ⟨q, hq, rfl⟩
      · subst h; rfl
      · simpa using ih q hq

theorem length_permutationsLen {α : Type} (r : Nat) (l : List α) :
    (permutationsLen l r).length = l.length.descFactorial r := by
  induction r generalizing l with
  | zero => rfl
  | succ r ih =>
      cases l with
      | nil => simp [permutationsLen, picks]
      | cons x xs =>
          have hconst : ∀ p ∈ picks (x :: xs),
              (permutationsLen p.2 r).length = xs.length.descFactorial r := by
            intro p hp
            have hlen := picks_snd_length (x :: xs) p hp
            rw [ih]
            have hp2 : p.2.length = xs.length := by
              simp only [List.length_cons] at hlen; omega
            rw [hp2]
          simp only [permutationsLen, List.length_flatMap, Function.comp_def,
            List.length_map]
          rw [List.map_congr_left hconst, List.map_const', List.sum_replicate,
            smul_eq_mul, picks_length, List.length_cons, Nat.succ_descFactorial_succ]

theorem length_productRepeat {α : Type} (r : Nat) (l : List α) :
    (productRepeat l r).length = l.length ^ r := by
  induction r with
  | zero => rfl
  | succ r ih =>
      simp only [productRepeat, List.length_flatMap, Function.comp_def, List.length_map]
      rw [ih, List.map_const', List.sum_replicate, smul_eq_mul]
      ring

theorem length_combinations {α : Type} (l : List α) :
    ∀ r : Nat, (combinations l r).length = l.length.choose r := by
  induction l with
  | nil => intro r; cases r <;> rfl
  | cons x xs ih =>
      intro r
      cases r with
      | zero => rfl
      | succ r =>
          simp only [combinations, List.length_append, List.length_map, ih,
            List.length_cons]
          rw [Nat.choose_succ_succ, Nat.add_comm]

theorem length_combinationsWithReplacement {α : Type} (r : Nat) :
    ∀ l : List α, (combinationsWithReplacement l r).length = (l.length + r - 1).choose r := by
  induction r with
  | zero => intro l; simp [combinationsWithReplacement]
  | succ r ih =>
      intro l
      induction l with
      | nil =>
          have step : combinationsWithReplacement ([] : List α) (r + 1) = [] := by
            simp [combinationsWithReplacement]
          rw [step]
          simp only [List.length_nil]
          exact (Nat.choose_eq_zero_of_lt (by omega)).symm
      | cons x xs ihl =>
          have step : combinationsWithReplacement (x :: xs) (r + 1)
              = ((combinationsWithReplacement (x :: xs) r).map (fun t => x :: t)) ++
                combinationsWithReplacement xs (r + 1) := by
            simp [combinationsWithReplacement]
          rw [step, List.length_append, List.length_map, ih, ihl]
          simp only [List.length_cons]
          have h1 : xs.length + 1 + r - 1 = xs.length + r := by omega
          have h2 : xs.length + (r + 1) - 1 = xs.length + r := by omega
          have h3 : xs.length + 1 + (r + 1) - 1 = xs.length + r + 1 := by omega
          rw [h1, h2, h3, Nat.choose_succ_succ]

/-! ### Membership characterizations -/

theorem mem_productRepeat {α : Type} (r : Nat) (l : List α) (t : List α) :
    t ∈ productRepeat l r ↔ t.length = r ∧ ∀ x ∈ t, x ∈ l := by
  induction r generalizing t with
  | zero =>
      simp only [productRepeat, List.mem_singleton]
      constructor
      · rintro rfl; simp
      · rintro ⟨hlen, -⟩; exact List.length_eq_zero.mp hlen
  | succ r ih =>
      simp only [productRepeat, List.mem_flatMap, List.mem_map]
      constructor
      · rintro ⟨x, hx, t', ht', rfl⟩
        obtain ⟨hlen, hmem⟩ := (ih t').mp ht'
        refine ⟨by simp [hlen], ?_⟩
        intro y hy
        rcases List.mem_cons.mp hy with rfl | hy
        · exact hx
        · exact hmem y hy
      · rintro ⟨hlen, hmem⟩
        cases t with
        | nil => simp at hlen
        | cons a t' =>
            refine ⟨a, hmem a (List.mem_cons_self a t'), t', ?_, rfl⟩
            refine (ih t').mpr ⟨by simpa using hlen, ?_⟩
            intro y hy
            exact hmem y (List.mem_cons_of_mem a hy)

theorem mem_combinationsWithReplacement {α : Type} (r : Nat) :
    ∀ (l : List α) (t : List α), t ∈ combinationsWithReplacement l r →
      t.length = r ∧ ∀ x ∈ t, x ∈ l := by
  induction r with
  | zero =>
      intro l t ht
      have step : combinationsWithReplacement l 0 = [[]] := by
        simp [combinationsWithReplacement]
      rw [step, List.mem_singleton] at ht
      subst ht
      simp
  | succ r ih =>
      intro l
      induction l with
      | nil =>
          intro t ht
          have step : combinationsWithReplacement ([] : List α) (r + 1) = [] := by
            simp [combinationsWithReplacement]
          rw [step] at ht
          simp at ht
      | cons x xs ihl =>
          intro t ht
          have step : combinationsWithReplacement (x :: xs) (r + 1)
              = ((combinationsWithReplacement (x :: xs) r).map (fun t => x :: t)) ++
                combinationsWithReplacement xs (r + 1) := by
            simp [combinationsWithReplacement]
          rw [step, List.mem_append] at ht
          rcases ht with h | h
          · rcases List.mem_map.mp h with ⟨t', ht', rfl⟩
            obtain ⟨hlen, hmem⟩ := ih (x :: xs) t' ht'
            refine ⟨by simp [hlen], ?_⟩
            intro y hy
            rcases List.mem_cons.mp hy with h' | hy
            · rw [h']; exact List.mem_cons_self x xs
            · exact hmem y hy
          · obtain ⟨hlen, hmem⟩ := ihl t h
            exact ⟨hlen, fun y hy => List.mem_cons_of_mem x (hmem y hy)⟩

/-! ### Internal order of the combination arrangements -/

theorem sublist_combinations {α : Type} (l : List α) :
    ∀ (r : Nat), ∀ t ∈ combinations l r, t.Sublist l := by
  induction l with
  | nil =>
      intro r t ht
      cases r with
      | zero =>
          rw [show combinations ([] : List α) 0 = [[]] from rfl, List.mem_singleton] at ht
          subst ht
          exact List.nil_sublist []
      | succ r => simp [combinations] at ht
  | cons x xs ih =>
      intro r t ht
      cases r with
      | zero =>
          rw [show combinations (x :: xs) 0 = [[]] from rfl, List.mem_singleton] at ht
          subst ht
          exact List.nil_sublist (x :: xs)
      | succ r =>
          simp only [combinations, List.mem_append, List.mem_map] at ht
          rcases ht with ⟨t', ht', rfl⟩ | h
          · exact List.Sublist.cons₂ x (ih r t' ht')
          · exact List.Sublist.cons x (ih (r + 1) t h)

theorem sorted_combinationsWithReplacement (r : Nat) :
    ∀ (l : List Nat), l.Sorted (· ≤ ·) →
      ∀ t ∈ combinationsWithReplacement l r, List.Sorted (· ≤ ·) t := by
  induction r with
  | zero =>
      intro l _ t ht
      have step : combinationsWithReplacement l 0 = [[]] := by
        simp [combinationsWithReplacement]
      rw [step, List.mem_singleton] at ht
      subst ht
      simp
  | succ r ih =>
      intro l
      induction l with
      | nil =>
          intro _ t ht
          have step : combinationsWithReplacement ([] : List Nat) (r + 1) = [] := by
            simp [combinationsWithReplacement]
          rw [step] at ht
          simp at ht
      | cons x xs ihl =>
          intro hl t ht
          have step : combinationsWithReplacement (x :: xs) (r + 1)
              = ((combinationsWithReplacement (x :: xs) r).map (fun t => x :: t)) ++
                combinationsWithReplacement xs (r + 1) := by
            simp [combinationsWithReplacement]
          rw [step, List.mem_append] at ht
          rcases ht with h | h
          · rcases List.mem_map.mp h with ⟨t', ht', rfl⟩
            rw [List.sorted_cons]
            refine ⟨?_, ih (x :: xs) hl t' ht'⟩
            intro b hb
            have hbmem := (mem_combinationsWithReplacement r (x :: xs) t' ht').2 b hb
            rcases List.mem_cons.mp hbmem with rfl | hbx
            · exact le_refl b
            · exact (List.sorted_cons.mp hl).1 b hbx
          · exact ihl (List.sorted_cons.mp hl).2 t h

/-! ### The enumerators commute with `List.map`, so the card arrangements are
the images of the position-tuple arrangements -/

theorem productRepeat_map {α β : Type} (f : α → β) (l : List α) (r : Nat) :
    productRepeat (l.map f) r = (productRepeat l r).map (List.map f) := by
  induction r with
  | zero => rfl
  | succ r ih =>
      simp only [productRepeat, ih, List.flatMap_map, List.map_flatMap, List.map_map]
      simp [Function.comp_def]

theorem combinations_map {α β : Type} (f : α → β) :
    ∀ (l : List α) (r : Nat),
      combinations (l.map f) r = (combinations l r).map (List.map f) := by
  intro l
  induction l with
  | nil => intro r; cases r <;> rfl
  | cons x xs ih =>
      intro r
      cases r with
      | zero => rfl
      | succ r =>
          simp only [List.map_cons, combinations, ih, List.map_append, List.map_map]
          congr 1

theorem combinationsWithReplacement_map {α β : Type} (f : α → β) (r : Nat) :
    ∀ (l : List α),
      combinationsWithReplacement (l.map f) r
        = (combinationsWithReplacement l r).map (List.map f) := by
  induction r with
  | zero => intro l; simp [combinationsWithReplacement]
  | succ r ih =>
      intro l
      induction l with
      | nil => simp [combinationsWithReplacement]
      | cons x xs ihl =>
          have step1 : combinationsWithReplacement (x :: xs) (r + 1)
              = ((combinationsWithReplacement (x :: xs) r).map (fun t => x :: t)) ++
                combinationsWithReplacement xs (r + 1) := by
            simp [combinationsWithReplacement]
          have step2 : combinationsWithReplacement (f x :: xs.map f) (r + 1)
              = ((combinationsWithReplacement (f x :: xs.map f) r).map (fun t => f x :: t)) ++
                combinationsWithReplacement (xs.map f) (r + 1) := by
            simp [combinationsWithReplacement]
          have hx : f x :: xs.map f = (x :: xs).map f := rfl
          rw [List.map_cons, step2, step1, List.map_append, List.map_map, hx,
            ih (x :: xs), ihl, List.map_map]
          congr 1

theorem getD_range_map {α : Type} (l : List α) (d : α) :
    (List.range l.length).map (fun i => l.getD i d) = l := by
  induction l with
  | nil => rfl
  | cons x xs ih =>
      rw [List.length_cons, List.range_succ_eq_map, List.map_cons, List.map_map]
      simp only [List.getD_cons_zero, Function.comp_def, Nat.succ_eq_add_one,
        List.getD_cons_succ]
      rw [ih]

/-! ### Enumeration order: pairwise-lexicographic output -/

theorem pairwise_flatMap {α β : Type} {R : β → β → Prop} {S : α → α → Prop}
    {f : α → List β} :
    ∀ (l : List α), l.Pairwise S → (∀ a ∈ l, (f a).Pairwise R) →
      (∀ a b, S a b → ∀ x ∈ f a, ∀ y ∈ f b, R x y) → (l.flatMap f).Pairwise R := by
  intro l
  induction l with
  | nil => intro _ _ _; simp
  | cons a l ih =>
      intro hS hf hc
      rw [List.flatMap_cons, List.pairwise_append]
      have hSc := List.pairwise_cons.mp hS
      refine ⟨hf a (List.mem_cons_self a l),
        ih hSc.2 (fun b hb => hf b (List.mem_cons_of_mem a hb)) hc, ?_⟩
      intro x hx y hy
      rcases List.mem_flatMap.mp hy with ⟨b, hb, hyb⟩
      exact hc a b (hSc.1 b hb) x hx y hyb

theorem pairwise_productRepeat {α : Type} {R : α → α → Prop} (r : Nat) (l : List α)
    (hl : l.Pairwise R) : (productRepeat l r).Pairwise (List.Lex R) := by
  induction r with
  | zero => simp [productRepeat]
  | succ r ih =>
      show (l.flatMap (fun x => (productRepeat l r).map (fun t => x :: t))).Pairwise
        (List.Lex R)
      apply pairwise_flatMap l hl
      · intro a _
        rw [List.pairwise_map]
        exact ih.imp (fun h => List.Lex.cons h)
      · intro a b hab x hx y hy
        rcases List.mem_map.mp hx with ⟨t1, -, rfl⟩
        rcases List.mem_map.mp hy with ⟨t2, -, rfl⟩
        exact List.Lex.rel hab

/-! ### Nodup of the with-replacement enumeration (used for the count bound) -/

theorem nodup_combinationsWithReplacement {α : Type} (r : Nat) :
    ∀ l : List α, l.Nodup → (combinationsWithReplacement l r).Nodup := by
  induction r with
  | zero =>
      intro l _
      have step : combinationsWithReplacement l 0 = [[]] := by
        simp [combinationsWithReplacement]
      rw [step]
      simp
  | succ r ih =>
      intro l
      induction l with
      | nil =>
          intro _
          have step : combinationsWithReplacement ([] : List α) (r + 1) = [] := by
            simp [combinationsWithReplacement]
          rw [step]
          simp
      | cons x xs ihl =>
          intro hnd
          have step : combinationsWithReplacement (x :: xs) (r + 1)
              = ((combinationsWithReplacement (x :: xs) r).map (fun t => x :: t)) ++
                combinationsWithReplacement xs (r + 1) := by
            simp [combinationsWithReplacement]
          rw [step, List.nodup_append]
          refine ⟨(ih (x :: xs) hnd).map List.cons_injective,
            ihl (List.nodup_cons.mp hnd).2, ?_⟩
          intro t ht1 ht2
          rcases List.mem_map.mp ht1 with ⟨t', -, rfl⟩
          have hmem := (mem_combinationsWithReplacement (r + 1) xs (x :: t') ht2).2 x
            (List.mem_cons_self x t')
          exact (List.nodup_cons.mp hnd).1 hmem

theorem choose_add_sub_one_le_pow (n r : Nat) : (n + r - 1).choose r ≤ n ^ r := by
  have hsub : combinationsWithReplacement (List.range n) r ⊆
      productRepeat (List.range n) r := by
    intro t ht
    obtain ⟨hlen, hmem⟩ := mem_combinationsWithReplacement r (List.range n) t ht
    exact (mem_productRepeat r (List.range n) t).mpr ⟨hlen, hmem⟩
  have hnd := nodup_combinationsWithReplacement r (List.range n) (List.nodup_range n)
  have hle := (List.subperm_of_subset hnd hsub).length_le
  rw [length_combinationsWithReplacement, length_productRepeat, List.length_range] at hle
  exact hle

/-! ### Claim theorems -/

theorem suits_index_lt (i : Nat) : i % 4 < suits.length := by
  simp [suits]; omega

theorem create_deck_length_natCast (n : Nat) : (create_deck (n : Int)).length = n := by
  simp [create_deck]

/-- C1: for every valid input (n ≥ 1, deck built from n, r ≥ 1, any mode, with
r ≤ n for the no-repetition modes) the length of the enumerated arrangement
list equals the code's closed-form count, which in turn equals the factorial
closed forms n!/(n−r)!, n^r, n!/(r!(n−r)!) and (n+r−1)!/(r!(n−1)!). -/
theorem c1_enumerate_length_eq_count (n r : Nat) (mode : SelectionMode)
    (hn : 1 ≤ n) (hr : 1 ≤ r)
    (hnr : (mode = SelectionMode.PermutationNoRepeat ∨
            mode = SelectionMode.CombinationNoRepeat) → r ≤ n) :
    (enumerate (create_deck (n : Int)) r mode).length = count n r mode ∧
    count n r mode = specCount n r mode := by
  have hdeck := create_deck_length_natCast n
  cases mode with
  | PermutationNoRepeat =>
      refine ⟨?_, ?_⟩
      · show (permutationsLen (create_deck (n : Int)) r).length = n.descFactorial r
        rw [length_permutationsLen, hdeck]
      · exact Nat.descFactorial_eq_div (hnr (Or.inl rfl))
  | PermutationWithRepeat =>
      refine ⟨?_, rfl⟩
      show (productRepeat (create_deck (n : Int)) r).length = n ^ r
      rw [length_productRepeat, hdeck]
  | CombinationNoRepeat =>
      refine ⟨?_, ?_⟩
      · show (combinations (create_deck (n : Int)) r).length = n.choose r
        rw [length_combinations, hdeck]
      · exact Nat.choose_eq_factorial_div_factorial (hnr (Or.inr rfl))
  | CombinationWithRepeat =>
      refine ⟨?_, ?_⟩
      · show (combinationsWithReplacement (create_deck (n : Int)) r).length
          = (n + r - 1).choose r
        rw [length_combinationsWithReplacement, hdeck]
      · show (n + r - 1).choose r
          = (n + r - 1).factorial / (r.factorial * (n - 1).factorial)
        have h1 : r ≤ n + r - 1 := by omega
        have h2 : n + r - 1 - r = n - 1 := by omega
        rw [Nat.choose_eq_factorial_div_factorial h1, h2]

/-- C1 witness: concrete instance n = 3, r = 2, CombinationWithRepeat. -/
theorem c1_witness :
    1 ≤ 3 ∧ 1 ≤ 2 ∧
    ((enumerate (create_deck (3 : Int)) 2 SelectionMode.CombinationWithRepeat).length
        = count 3 2 SelectionMode.CombinationWithRepeat ∧
      count 3 2 SelectionMode.CombinationWithRepeat
        = specCount 3 2 SelectionMode.CombinationWithRepeat) :=
  ⟨by decide, by decide,
    c1_enumerate_length_eq_count 3 2 SelectionMode.CombinationWithRepeat
      (by decide) (by decide) (fun _ => by decide)⟩

/-- C2 counterexample: with n = 2, r = 3, PermutationNoRepeat enumeration
returns the empty arrangement list — a normal result, not an InvalidSelection
failure (the code has no failure path for r > n). -/
theorem c2_counterexample :
    enumerate (create_deck (2 : Int)) 3 SelectionMode.PermutationNoRepeat = [] := by
  decide

/-- C2 (amended): for every deck and r exceeding the deck size, the
no-repetition enumerations return the empty list of arrangements (count 0)
instead of failing with an InvalidSelection condition. -/
theorem c2_no_repeat_overlong_empty (cards : List Card) (r : Nat)
    (h : cards.length < r) :
    enumerate cards r SelectionMode.PermutationNoRepeat = [] ∧
    enumerate cards r SelectionMode.CombinationNoRepeat = [] := by
  constructor
  · have hlen := length_permutationsLen r cards
    rw [Nat.descFactorial_eq_zero_iff_lt.mpr h] at hlen
    exact List.length_eq_zero.mp hlen
  · have hlen := length_combinations cards r
    rw [Nat.choose_eq_zero_of_lt h] at hlen
    exact List.length_eq_zero.mp hlen

/-- C2 witness: the amended claim at the concrete input n = 2, r = 3. -/
theorem c2_witness :
    (create_deck (2 : Int)).length < 3 ∧
    (enumerate (create_deck (2 : Int)) 3 SelectionMode.PermutationNoRepeat = [] ∧
      enumerate (create_deck (2 : Int)) 3 SelectionMode.CombinationNoRepeat = []) :=
  ⟨by decide, c2_no_repeat_overlong_empty (create_deck (2 : Int)) 3 (by decide)⟩

/-- C3 counterexample: with n = 0 (< 1) the deck builder returns an empty
deck — a normal result, not an InvalidSize failure. -/
theorem c3_counterexample : create_deck 0 = [] := by decide

/-- C3 (amended): for every n < 1 the deck builder returns the empty deck
(length 0) instead of failing with an InvalidSize condition. -/
theorem c3_deck_empty_for_nonpositive (n : Int) (h : n < 1) : create_deck n = [] := by
  have h0 : n.toNat = 0 := Int.toNat_of_nonpos (by omega)
  simp [create_deck, h0]

/-- C3 witness: the amended claim at the concrete input n = -5. -/
theorem c3_witness : (-5 : Int) < 1 ∧ create_deck (-5) = [] :=
  ⟨by decide, c3_deck_empty_for_nonpositive (-5) (by decide)⟩

/-- C4: for n ≥ 1 the deck has exactly n cards; card i has value (i mod 13)+1
and suit suits[i mod 4]; and the builder is deterministic in n. -/
theorem c4_deck_structure (n : Int) (hn : 1 ≤ n) :
    (create_deck n).length = n.toNat ∧
    (∀ i : Nat, ∀ hi : i < (create_deck n).length,
      ((create_deck n).get ⟨i, hi⟩).value = i % 13 + 1 ∧
      ((create_deck n).get ⟨i, hi⟩).suit = suits.get ⟨i % 4, suits_index_lt i⟩) ∧
    (∀ m : Int, m = n → create_deck m = create_deck n) := by
  refine ⟨by simp [create_deck], ?_, fun m hm => by rw [hm]⟩
  intro i hi
  constructor
  · simp [create_deck, List.get_eq_getElem, List.getElem_map, List.getElem_range,
      Card.init, pipValues]
  · simp [create_deck, List.get_eq_getElem, List.getElem_map, List.getElem_range,
      Card.init]

/-- C4 witness: concrete instance n = 6. -/
theorem c4_witness :
    (1 : Int) ≤ 6 ∧
    ((create_deck 6).length = (6 : Int).toNat ∧
      (∀ i : Nat, ∀ hi : i < (create_deck 6).length,
        ((create_deck 6).get ⟨i, hi⟩).value = i % 13 + 1 ∧
        ((create_deck 6).get ⟨i, hi⟩).suit = suits.get ⟨i % 4, suits_index_lt i⟩) ∧
      (∀ m : Int, m = 6 → create_deck m = create_deck 6)) :=
  ⟨by decide, c4_deck_structure 6 (by decide)⟩

/-- C5: for every count ≥ 1, calculate_grid_dimensions returns rows ≥ 1,
cols ≥ 1 with rows * cols ≥ count. -/
theorem c5_grid_covers (c : Nat) (h : 1 ≤ c) :
    1 ≤ (calculate_grid_dimensions c).1 ∧ 1 ≤ (calculate_grid_dimensions c).2 ∧
      c ≤ (calculate_grid_dimensions c).1 * (calculate_grid_dimensions c).2 := by
  simp only [calculate_grid_dimensions]
  split_ifs with h1 h2
  · simp only
    omega
  · simp only
    omega
  · simp only
    have hmin : min 6 c = 6 := by omega
    rw [hmin]
    refine ⟨by omega, by omega, ?_⟩
    omega

/-- C5 witness: concrete instance count = 10 (capped columns branch). -/
theorem c5_witness :
    1 ≤ 10 ∧
    (1 ≤ (calculate_grid_dimensions 10).1 ∧ 1 ≤ (calculate_grid_dimensions 10).2 ∧
      10 ≤ (calculate_grid_dimensions 10).1 * (calculate_grid_dimensions 10).2) :=
  ⟨by decide, c5_grid_covers 10 (by decide)⟩

/-- C10 (implicit): with r = 0 each of the four enumerations returns exactly
one arrangement — the empty arrangement — and every closed-form count is 1. -/
theorem c10_r_zero (n : Nat) (hn : 1 ≤ n) :
    (∀ mode, enumerate (create_deck (n : Int)) 0 mode = [[]]) ∧
    (∀ mode, count n 0 mode = 1) := by
  constructor
  · intro mode
    cases mode with
    | PermutationNoRepeat => rfl
    | PermutationWithRepeat => rfl
    | CombinationNoRepeat =>
        show combinations (create_deck (n : Int)) 0 = [[]]
        cases hdeck : create_deck (n : Int) <;> rfl
    | CombinationWithRepeat =>
        show combinationsWithReplacement (create_deck (n : Int)) 0 = [[]]
        simp [combinationsWithReplacement]
  · intro mode
    cases mode <;> simp [count]

/-- C10 witness: concrete instance n = 2. -/
theorem c10_witness :
    1 ≤ 2 ∧
    ((∀ mode, enumerate (create_deck (2 : Int)) 0 mode = [[]]) ∧
      (∀ mode, count 2 0 mode = 1)) :=
  ⟨by decide, c10_r_zero 2 (by decide)⟩

/-- C6: combination arrangements are internally in ascending source-index
order: the card enumerations are the index-wise images of the enumerations
over the position list range(n), whose tuples are strictly ascending for
CombinationNoRepeat and non-decreasing for CombinationWithRepeat. -/
theorem c6_combination_sorted (deck : List Card) (r : Nat) (h : r ≤ deck.length) :
    combinations deck r
      = (combinations (List.range deck.length) r).map
          (fun t => t.map (fun i => deck.getD i default)) ∧
    (∀ t ∈ combinations (List.range deck.length) r, List.Sorted (· < ·) t) ∧
    combinationsWithReplacement deck r
      = (combinationsWithReplacement (List.range deck.length) r).map
          (fun t => t.map (fun i => deck.getD i default)) ∧
    (∀ t ∈ combinationsWithReplacement (List.range deck.length) r,
      List.Sorted (· ≤ ·) t) := by
  refine ⟨?_, ?_, ?_, ?_⟩
  · conv_lhs => rw [← getD_range_map deck default]
    rw [combinations_map]
  · intro t ht
    exact List.Pairwise.sublist (sublist_combinations _ r t ht)
      (List.pairwise_lt_range _)
  · conv_lhs => rw [← getD_range_map deck default]
    rw [combinationsWithReplacement_map]
  · intro t ht
    exact sorted_combinationsWithReplacement r (List.range deck.length)
      ((List.pairwise_lt_range _).imp (fun h' => le_of_lt h')) t ht

/-- C6 witness: concrete instance deck = create_deck 3, r = 2. -/
theorem c6_witness :
    2 ≤ (create_deck (3 : Int)).length ∧
    (combinations (create_deck (3 : Int)) 2
        = (combinations (List.range (create_deck (3 : Int)).length) 2).map
            (fun t => t.map (fun i => (create_deck (3 : Int)).getD i default)) ∧
      (∀ t ∈ combinations (List.range (create_deck (3 : Int)).length) 2,
        List.Sorted (· < ·) t) ∧
      combinationsWithReplacement (create_deck (3 : Int)) 2
        = (combinationsWithReplacement (List.range (create_deck (3 : Int)).length) 2).map
            (fun t => t.map (fun i => (create_deck (3 : Int)).getD i default)) ∧
      (∀ t ∈ combinationsWithReplacement (List.range (create_deck (3 : Int)).length) 2,
        List.Sorted (· ≤ ·) t)) :=
  ⟨by decide, c6_combination_sorted (create_deck (3 : Int)) 2 (by decide)⟩

/-- C7: PermutationWithRepeat enumeration is the image of the enumeration
over the position list range(n); the latter has exactly n^r tuples, contains
a tuple iff it is an r-tuple over positions below n, and is pairwise
lexicographically increasing (odometer order, rightmost fastest). -/
theorem c7_product_enumeration (deck : List Card) (r : Nat) (hr : 1 ≤ r) :
    productRepeat deck r
      = (productRepeat (List.range deck.length) r).map
          (fun t => t.map (fun i => deck.getD i default)) ∧
    (productRepeat (List.range deck.length) r).length = deck.length ^ r ∧
    (∀ t, t ∈ productRepeat (List.range deck.length) r ↔
      (t.length = r ∧ ∀ i ∈ t, i < deck.length)) ∧
    (productRepeat (List.range deck.length) r).Pairwise (List.Lex (· < ·)) := by
  refine ⟨?_, ?_, ?_, ?_⟩
  · conv_lhs => rw [← getD_range_map deck default]
    rw [productRepeat_map]
  · rw [length_productRepeat, List.length_range]
  · intro t
    rw [mem_productRepeat]
    simp [List.mem_range]
  · exact pairwise_productRepeat r _ (List.pairwise_lt_range _)

/-- C7 witness: concrete instance deck = create_deck 2, r = 2. -/
theorem c7_witness :
    1 ≤ 2 ∧
    (productRepeat (create_deck (2 : Int)) 2
        = (productRepeat (List.range (create_deck (2 : Int)).length) 2).map
            (fun t => t.map (fun i => (create_deck (2 : Int)).getD i default)) ∧
      (productRepeat (List.range (create_deck (2 : Int)).length) 2).length
        = (create_deck (2 : Int)).length ^ 2 ∧
      (∀ t, t ∈ productRepeat (List.range (create_deck (2 : Int)).length) 2 ↔
        (t.length = 2 ∧ ∀ i ∈ t, i < (create_deck (2 : Int)).length)) ∧
      (productRepeat (List.range (create_deck (2 : Int)).length) 2).Pairwise
        (List.Lex (· < ·))) :=
  ⟨by decide, c7_product_enumeration (create_deck (2 : Int)) 2 (by decide)⟩

/-- C8: order-sensitivity never decreases the count: the no-repetition
permutation count dominates the no-repetition combination count, and the
with-repetition permutation count dominates the with-repetition combination
count. -/
theorem c8_count_monotone (n r : Nat) (hn : 1 ≤ n) (hr : 1 ≤ r) :
    count n r SelectionMode.CombinationNoRepeat
        ≤ count n r SelectionMode.PermutationNoRepeat ∧
    count n r SelectionMode.CombinationWithRepeat
        ≤ count n r SelectionMode.PermutationWithRepeat := by
  constructor
  · show n.choose r ≤ n.descFactorial r
    rw [Nat.descFactorial_eq_factorial_mul_choose]
    exact Nat.le_mul_of_pos_left _ (Nat.factorial_pos r)
  · exact choose_add_sub_one_le_pow n r

/-- C8 witness: concrete instance n = 3, r = 2. -/
theorem c8_witness :
    1 ≤ 3 ∧ 1 ≤ 2 ∧
    (count 3 2 SelectionMode.CombinationNoRepeat
        ≤ count 3 2 SelectionMode.PermutationNoRepeat ∧
      count 3 2 SelectionMode.CombinationWithRepeat
        ≤ count 3 2 SelectionMode.PermutationWithRepeat) :=
  ⟨by decide, by decide, c8_count_monotone 3 2 (by decide) (by decide)⟩

/-- C9 counterexample: no positive minimum item size exists — for every
m > 0 the per-card width (and hence height) computed by the layout code drops
below m for large enough r, so the claimed clamp to a minimum visible size is
absent from the code. -/
theorem c9_counterexample :
    ¬ ∃ m : ℚ, 0 < m ∧ ∀ r : Nat, 1 ≤ r → m ≤ card_width r ∧ m ≤ card_height r := by
  rintro ⟨m, hm, h⟩
  set r : Nat := Nat.ceil ((7 / 10 : ℚ) / m) + 3 with hrdef
  have hr3 : 3 ≤ r := by omega
  have hmax : max r 3 = r := max_eq_left hr3
  have hrpos : (0 : ℚ) < (r : ℚ) := by
    have : 0 < r := by omega
    exact_mod_cast this
  have hlt : (7 / 10 : ℚ) / m < (r : ℚ) := by
    have h1 : (7 / 10 : ℚ) / m ≤ (Nat.ceil ((7 / 10 : ℚ) / m) : ℚ) := Nat.le_ceil _
    have h2 : ((Nat.ceil ((7 / 10 : ℚ) / m) : Nat) : ℚ) < (r : ℚ) := by
      exact_mod_cast (by omega : Nat.ceil ((7 / 10 : ℚ) / m) < r)
    linarith
  have hwidth : card_width r < m := by
    unfold card_width
    rw [hmax, div_lt_iff₀ hrpos]
    rw [div_lt_iff₀ hm] at hlt
    linarith
  exact absurd (h r (by omega)).1 (not_le.mpr hwidth)

/-- C9 (amended): the per-card size has no positive lower bound: for every
m > 0 some r ≥ 1 makes both the card width 0.7/max(r,3) and the card height
1.4 times that width smaller than m (the max(·,3) in the denominator only
caps the size from above). -/
theorem c9_no_minimum_size (m : ℚ) (hm : 0 < m) :
    ∃ r : Nat, 1 ≤ r ∧ card_width r < m ∧ card_height r < m := by
  refine ⟨Nat.ceil ((49 / 50 : ℚ) / m) + 3, by omega, ?_, ?_⟩
  all_goals
    set r : Nat := Nat.ceil ((49 / 50 : ℚ) / m) + 3 with hrdef
    have hr3 : 3 ≤ r := by omega
    have hmax : max r 3 = r := max_eq_left hr3
    have hrpos : (0 : ℚ) < (r : ℚ) := by
      have : 0 < r := by omega
      exact_mod_cast this
    have hlt : (49 / 50 : ℚ) < m * (r : ℚ) := by
      have h1 : (49 / 50 : ℚ) / m ≤ (Nat.ceil ((49 / 50 : ℚ) / m) : ℚ) := Nat.le_ceil _
      have h2 : ((Nat.ceil ((49 / 50 : ℚ) / m) : Nat) : ℚ) < (r : ℚ) := by
        exact_mod_cast (by omega : Nat.ceil ((49 / 50 : ℚ) / m) < r)
      have h3 : (49 / 50 : ℚ) / m < (r : ℚ) := by linarith
      rw [div_lt_iff₀ hm] at h3
      linarith
  · unfold card_width
    rw [hmax, div_lt_iff₀ hrpos]
    linarith
  · unfold card_height card_width
    rw [hmax, div_mul_eq_mul_div, div_lt_iff₀ hrpos]
    linarith

/-- C9 witness: the amended claim at the concrete bound m = 1/100. -/
theorem c9_witness :
    (0 : ℚ) < 1 / 100 ∧
    ∃ r : Nat, 1 ≤ r ∧ card_width r < 1 / 100 ∧ card_height r < 1 / 100 :=
  ⟨by norm_num, c9_no_minimum_size (1 / 100) (by norm_num)⟩
